import Mathlib

/-!
Shallow embedding of `src/coreclr/debug/ee/debuggermodule.cpp`: the
`DebuggerModule` shadow record and the `DebuggerModuleTable` registry.

Engine `Module*` and `AppDomain*` pointers are opaque identities, modelled
as `Nat`.  The underlying generic hash container `CHashTableAndData`
(declared elsewhere in the repository, not under `src/`) is modelled from
the spec: a finite collection of entries, each wrapping one shadow record,
represented as the list of entries in iteration
(`FindFirstEntry`/`FindNextEntry`) order; `Add` places the fresh entry at
the front of the iteration order (head of its hash chain).
-/

set_option autoImplicit false

/-- Shadow record `DebuggerModule`: engine module identity
(`m_pRuntimeModule`), owning app-domain identity (`m_pAppDomain`) and the
JIT-flags mutability bit (`m_fCanChangeJitFlags`). -/
structure DebuggerModule where
  m_pRuntimeModule : Nat
  m_pAppDomain : Nat
  m_fCanChangeJitFlags : Bool
  deriving DecidableEq, Repr

/-- Accessor `DebuggerModule::GetRuntimeModule`. -/
abbrev DebuggerModule.GetRuntimeModule (dm : DebuggerModule) : Nat :=
  dm.m_pRuntimeModule

/-- Accessor `DebuggerModule::GetAppDomain`. -/
abbrev DebuggerModule.GetAppDomain (dm : DebuggerModule) : Nat :=
  dm.m_pAppDomain

/-- Source `DebuggerModule::SetCanChangeJitFlags` (debuggermodule.cpp lines
25-28): unconditionally overwrite `m_fCanChangeJitFlags` with the argument. -/
def DebuggerModule.SetCanChangeJitFlags (dm : DebuggerModule)
    (fCanChangeJitFlags : Bool) : DebuggerModule :=
  { dm with m_fCanChangeJitFlags := fCanChangeJitFlags }

/-- Modelled from the spec: the registry's underlying open hash container
(`CHashTableAndData`, declared outside `src/`) as the list of its entries
(each `DebuggerModuleEntry` wraps exactly one shadow record) in iteration
order. -/
abbrev DebuggerModuleTable := List DebuggerModule

/-- Modelled from the spec: the hash of a raw engine-module identity over
the 101-bucket table set up by the `DebuggerModuleTable` constructor
(`NewInit(101, sizeof(DebuggerModuleEntry), 101)`). -/
def HASH (m : Nat) : Nat := m % 101

namespace DebuggerModuleTable

/-- The freshly constructed registry (constructor at debuggermodule.cpp
lines 33-39): an empty table. -/
def new : DebuggerModuleTable := []

/-- Result of `DebuggerModuleTable::AddModule`: either the entry was
allocated and stored, or allocation failed and `ThrowOutOfMemory` was
raised. -/
inductive AddResult where
  | ok : AddResult
  | oom : AddResult
  deriving DecidableEq, Repr

/-- Source `DebuggerModuleTable::AddModule` (lines 135-158): allocate a new
entry for `HASH(pModule->GetRuntimeModule())` and store the record in it;
if allocation fails, raise out-of-memory and leave the table unchanged.
Allocation success is an explicit oracle argument `allocOk`; the placement
of the new entry (front of its hash chain, hence front of the iteration
order in this model) is modelled from the spec.  No uniqueness check is
performed. -/
def AddModule (t : DebuggerModuleTable) (pModule : DebuggerModule)
    (allocOk : Bool) : DebuggerModuleTable × AddResult :=
  if allocOk then (pModule :: t, AddResult.ok) else (t, AddResult.oom)

/-- Source `DebuggerModuleTable::GetModule(Module*)` (lines 205-223):
`Find(HASH(module), KEY(module))` on the underlying container.  Modelled
from the spec: `Find` walks the hash chain of bucket `HASH module` and
returns the first entry whose stored key compares equal (the container's
`Cmp` compares the raw module identities), i.e. the first entry in
iteration order whose bucket matches and whose `m_pRuntimeModule` equals
the query. -/
def GetModule (t : DebuggerModuleTable) (module : Nat) : Option DebuggerModule :=
  match t with
  | [] => none
  | e :: rest =>
    if HASH e.GetRuntimeModule = HASH module ∧ e.GetRuntimeModule = module then
      some e
    else
      GetModule rest module

/-- Source `DebuggerModuleTable::GetModule(Module*, AppDomain*)` (lines
226-255): linear scan over all entries via
`FindFirstEntry`/`FindNextEntry`, returning the first record whose
`GetRuntimeModule()` and `GetAppDomain()` both match; `NULL` if none. -/
def GetModuleInDomain (t : DebuggerModuleTable) (module : Nat)
    (pAppDomain : Nat) : Option DebuggerModule :=
  match t with
  | [] => none
  | e :: rest =>
    if e.GetRuntimeModule = module ∧ e.GetAppDomain = pAppDomain then
      some e
    else
      GetModuleInDomain rest module pAppDomain

/-- Source `DebuggerModuleTable::RemoveModule` (lines 164-200): scan the
entries in iteration order; on the first entry whose runtime module and app
domain both match, delete it (the record is destroyed) and return; if no
entry matches, return with the table unchanged (silent no-op). -/
def RemoveModule (t : DebuggerModuleTable) (pModule : Nat)
    (pAppDomain : Nat) : DebuggerModuleTable :=
  match t with
  | [] => []
  | e :: rest =>
    if e.GetRuntimeModule = pModule ∧ e.GetAppDomain = pAppDomain then
      rest
    else
      e :: RemoveModule rest pModule pAppDomain

/-- A matching entry strictly shrinks the table under `RemoveModule`. -/
theorem RemoveModule_length_lt (t : DebuggerModuleTable) (m a : Nat)
    (e : DebuggerModule) (he : e ∈ t) (hm : e.GetRuntimeModule = m)
    (ha : e.GetAppDomain = a) :
    (RemoveModule t m a).length < t.length := by
  induction t with
  | nil => cases he
  | cons f rest ih =>
    by_cases hf : f.GetRuntimeModule = m ∧ f.GetAppDomain = a
    · simp [RemoveModule, hf]
    · have hmem : e ∈ rest := by
        rcases List.mem_cons.mp he with he | he
        · subst he; exact absurd ⟨hm, ha⟩ hf
        · exact he
      simp only [RemoveModule, if_neg hf, List.length_cons]
      exact Nat.succ_lt_succ (ih hmem)

/-- Source loop body of `DebuggerModuleTable::RemoveModules` (lines
64-102), with the `HASHFIND` cursor modelled as the index `i` of the
current entry in iteration order: if the current entry's record has the
given app domain, defer to `RemoveModule` for the removal and restart the
scan at the first entry; otherwise advance the cursor; stop when the cursor
runs off the end. -/
def removeModulesGo (t : DebuggerModuleTable) (pAppDomain : Nat)
    (i : Nat) : DebuggerModuleTable :=
  if h : i < t.length then
    if hd : (t.get ⟨i, h⟩).GetAppDomain = pAppDomain then
      removeModulesGo
        (RemoveModule t (t.get ⟨i, h⟩).GetRuntimeModule pAppDomain)
        pAppDomain 0
    else
      removeModulesGo t pAppDomain (i + 1)
  else
    t
termination_by (t.length, t.length - i)
decreasing_by
  · apply Prod.Lex.left
    exact RemoveModule_length_lt t _ pAppDomain (t.get ⟨i, h⟩)
      (List.get_mem t i h) rfl hd
  · apply Prod.Lex.right
    omega

/-- Source `DebuggerModuleTable::RemoveModules(AppDomain*)` (lines 64-102):
remove every record loaded into the given app domain, starting the scan
from the first entry. -/
def RemoveModules (t : DebuggerModuleTable) (pAppDomain : Nat) :
    DebuggerModuleTable :=
  removeModulesGo t pAppDomain 0

/-- Source `DebuggerModuleTable::Clear` (lines 104-133): repeatedly fetch
the first entry, destroy its record and delete the entry, until the table
is empty. -/
def Clear (t : DebuggerModuleTable) : DebuggerModuleTable :=
  match t with
  | [] => []
  | _ :: rest => Clear rest

/-- Source `DebuggerModuleTable::GetFirstModule` (lines 257-273): the
record of the first entry of a fresh iteration, or `NULL` when there is
none. -/
def GetFirstModule (t : DebuggerModuleTable) : Option DebuggerModule :=
  t.head?

/-- Source `DebuggerModuleTable::GetNextModule` (lines 275-291): the record
of the entry after cursor position `i` in iteration order, or `NULL` when
the iteration is exhausted. -/
def GetNextModule (t : DebuggerModuleTable) (i : Nat) : Option DebuggerModule :=
  t.get? (i + 1)

/-- Entries of the table whose record matches the given (module, domain)
key, in iteration order. -/
def keyEntries (t : DebuggerModuleTable) (m a : Nat) : List DebuggerModule :=
  match t with
  | [] => []
  | e :: rest =>
    if e.GetRuntimeModule = m ∧ e.GetAppDomain = a then
      e :: keyEntries rest m a
    else
      keyEntries rest m a

theorem GetModuleInDomain_eq_head (t : DebuggerModuleTable) (m a : Nat) :
    GetModuleInDomain t m a = (keyEntries t m a).head? := by
  induction t with
  | nil => rfl
  | cons e rest ih =>
    by_cases h : e.GetRuntimeModule = m ∧ e.GetAppDomain = a
    · simp [GetModuleInDomain, keyEntries, h]
    · simp [GetModuleInDomain, keyEntries, h, ih]

/-- Removing a key removes exactly the head of its key-entry list. -/
theorem keyEntries_RemoveModule_same (t : DebuggerModuleTable) (m a : Nat) :
    keyEntries (RemoveModule t m a) m a = (keyEntries t m a).tail := by
  induction t with
  | nil => rfl
  | cons e rest ih =>
    by_cases h : e.GetRuntimeModule = m ∧ e.GetAppDomain = a
    · simp [RemoveModule, keyEntries, h]
    · simp [RemoveModule, keyEntries, h, ih]

/-- Removing one key leaves the entries of every other key untouched. -/
theorem keyEntries_RemoveModule_ne (t : DebuggerModuleTable)
    (m a m' a' : Nat) (hne : ¬(m' = m ∧ a' = a)) :
    keyEntries (RemoveModule t m' a') m a = keyEntries t m a := by
  induction t with
  | nil => rfl
  | cons e rest ih =>
    by_cases h : e.GetRuntimeModule = m' ∧ e.GetAppDomain = a'
    · have hnot : ¬(e.GetRuntimeModule = m ∧ e.GetAppDomain = a) := by
        rintro ⟨h1, h2⟩
        exact hne ⟨by rw [← h.1, h1], by rw [← h.2, h2]⟩
      have h1 : RemoveModule (e :: rest) m' a' = rest := by
        simp [RemoveModule, h]
      have h2 : keyEntries (e :: rest) m a = keyEntries rest m a := by
        simp [keyEntries, hnot]
      rw [h1, h2]
    · simp only [RemoveModule, if_neg h]
      by_cases hk : e.GetRuntimeModule = m ∧ e.GetAppDomain = a
      · simp [keyEntries, hk, ih]
      · simp [keyEntries, hk, ih]

theorem keyEntries_nil_of_nil {t : DebuggerModuleTable} {m a : Nat}
    (h : keyEntries t m a = []) {m' a' : Nat} :
    keyEntries (RemoveModule t m' a') m a = [] := by
  by_cases hk : m' = m ∧ a' = a
  · rw [hk.1, hk.2, keyEntries_RemoveModule_same, h]; rfl
  · rw [keyEntries_RemoveModule_ne t m a m' a' hk, h]

/-- Records of the table whose app domain differs from `d`, in iteration
order: the records that survive `RemoveModules d`. -/
def survivors (t : DebuggerModuleTable) (d : Nat) : DebuggerModuleTable :=
  match t with
  | [] => []
  | e :: rest =>
    if e.GetAppDomain = d then survivors rest d else e :: survivors rest d

/-- Number of records of the table whose app domain equals `d`. -/
def countDomain (t : DebuggerModuleTable) (d : Nat) : Nat :=
  match t with
  | [] => 0
  | e :: rest =>
    if e.GetAppDomain = d then countDomain rest d + 1 else countDomain rest d

theorem survivors_append (l1 l2 : DebuggerModuleTable) (d : Nat) :
    survivors (l1 ++ l2) d = survivors l1 d ++ survivors l2 d := by
  induction l1 with
  | nil => rfl
  | cons e rest ih =>
    by_cases h : e.GetAppDomain = d <;> simp [survivors, h, ih]

theorem survivors_of_clean {t : DebuggerModuleTable} {d : Nat}
    (h : ∀ e ∈ t, e.GetAppDomain ≠ d) : survivors t d = t := by
  induction t with
  | nil => rfl
  | cons e rest ih =>
    have he : e.GetAppDomain ≠ d := h e (List.mem_cons_self e rest)
    simp only [survivors, if_neg he]
    rw [ih (fun x hx => h x (List.mem_cons_of_mem e hx))]

theorem mem_survivors_domain {t : DebuggerModuleTable} {d : Nat}
    {e : DebuggerModule} (h : e ∈ survivors t d) : e.GetAppDomain ≠ d := by
  induction t with
  | nil => cases h
  | cons f rest ih =>
    by_cases hf : f.GetAppDomain = d
    · rw [survivors, if_pos hf] at h
      exact ih h
    · rw [survivors, if_neg hf] at h
      rcases List.mem_cons.mp h with h | h
      · rw [h]; exact hf
      · exact ih h

theorem survivors_idem (t : DebuggerModuleTable) (d : Nat) :
    survivors (survivors t d) d = survivors t d :=
  survivors_of_clean (fun _ he => mem_survivors_domain he)

theorem survivors_length_add_countDomain (t : DebuggerModuleTable) (d : Nat) :
    (survivors t d).length + countDomain t d = t.length := by
  induction t with
  | nil => rfl
  | cons e rest ih =>
    by_cases h : e.GetAppDomain = d
    · simp only [survivors, countDomain, if_pos h, List.length_cons]
      omega
    · simp only [survivors, countDomain, if_neg h, List.length_cons]
      omega

/-- A removal behind a run of non-matching entries passes over that run. -/
theorem RemoveModule_append (l1 l2 : DebuggerModuleTable) (m a : Nat)
    (h : ∀ x ∈ l1, ¬(x.GetRuntimeModule = m ∧ x.GetAppDomain = a)) :
    RemoveModule (l1 ++ l2) m a = l1 ++ RemoveModule l2 m a := by
  induction l1 with
  | nil => rfl
  | cons e rest ih =>
    have he := h e (List.mem_cons_self e rest)
    have hrest := ih (fun x hx => h x (List.mem_cons_of_mem e hx))
    simp only [List.cons_append, RemoveModule, if_neg he]
    exact congrArg (e :: ·) hrest

/-- `RemoveModule` on a key with no matching entry is the identity. -/
theorem RemoveModule_of_clean {t : DebuggerModuleTable} {m a : Nat}
    (h : ∀ e ∈ t, ¬(e.GetRuntimeModule = m ∧ e.GetAppDomain = a)) :
    RemoveModule t m a = t := by
  have hap := RemoveModule_append t [] m a h
  simpa [RemoveModule] using hap

/-- The scan of `RemoveModules`, started at a cursor whose already-scanned
front contains no record of domain `d`, removes exactly the records of
domain `d`. -/
theorem removeModulesGo_eq_survivors (t : DebuggerModuleTable) (d i : Nat)
    (h : ∀ e ∈ t.take i, e.GetAppDomain ≠ d) :
    removeModulesGo t d i = survivors t d := by
  induction t, d, i using removeModulesGo.induct with
  | case1 t i hi ih =>
    rw [removeModulesGo, dif_pos hi, dif_pos rfl]
    set e : DebuggerModule := t.get ⟨i, hi⟩ with hE
    have hsplit : t.take i ++ e :: t.drop (i + 1) = t := by
      rw [hE, List.cons_get_drop_succ, List.take_append_drop]
    have hrm : RemoveModule t e.GetRuntimeModule e.GetAppDomain
        = t.take i ++ t.drop (i + 1) := by
      conv_lhs => rw [← hsplit]
      rw [RemoveModule_append _ _ _ _ (fun x hx hmatch => h x hx hmatch.2)]
      congr 1
      simp [RemoveModule]
    rw [hrm]
    rw [hrm] at ih
    rw [ih (by simp)]
    conv_rhs => rw [← hsplit]
    rw [survivors_append]
    conv_rhs => rw [survivors_append]
    simp [survivors]
  | case2 t pAppDomain i hi hne ih =>
    rw [removeModulesGo, dif_pos hi, dif_neg hne]
    apply ih
    intro x hx
    rw [← List.take_concat_get' t i hi] at hx
    rcases List.mem_append.mp hx with hx | hx
    · exact h x hx
    · rw [List.mem_singleton.mp hx]
      exact hne
  | case3 t pAppDomain i hi =>
    rw [removeModulesGo, dif_neg hi]
    simp only [List.take_of_length_le (Nat.le_of_not_lt hi)] at h
    exact (survivors_of_clean h).symm

theorem RemoveModules_eq_survivors (t : DebuggerModuleTable) (d : Nat) :
    RemoveModules t d = survivors t d :=
  removeModulesGo_eq_survivors t d 0 (by simp)

/-- One mutable-mode operation of the engine's notification stream: a
module-load event inserting a fresh shadow record (`AddModule` with a
successful allocation), or a module-unload event removing one
(module, domain) key (`RemoveModule`). -/
inductive TableOp where
  | insert (dm : DebuggerModule)
  | removeOne (pModule : Nat) (pAppDomain : Nat)
  deriving DecidableEq, Repr

/-- Effect of one operation on the table. -/
def applyOp (t : DebuggerModuleTable) : TableOp → DebuggerModuleTable
  | TableOp.insert dm => (AddModule t dm true).1
  | TableOp.removeOne m a => RemoveModule t m a

/-- Effect of a whole operation sequence, first operation first. -/
def applyOps (t : DebuggerModuleTable) (ops : List TableOp) :
    DebuggerModuleTable :=
  ops.foldl applyOp t

/-- Whether one operation touches the (module, domain) key: `some (some
dm)` for an insertion of `dm` under that key, `some none` for a removal of
that key, `none` when the key is untouched. -/
def touchKey (m a : Nat) : TableOp → Option (Option DebuggerModule)
  | TableOp.insert dm =>
    if dm.GetRuntimeModule = m ∧ dm.GetAppDomain = a then some (some dm)
    else none
  | TableOp.removeOne m' a' =>
    if m' = m ∧ a' = a then some none else none

/-- Verdict of an operation sequence on one (module, domain) key, later
operations overriding earlier ones: `none` when no operation touched the
key, `some none` when the operation that touched it last removed it, and
`some (some dm)` when the operation that touched it last inserted `dm`. -/
def specTrace (ops : List TableOp) (m a : Nat) :
    Option (Option DebuggerModule) :=
  match ops with
  | [] => none
  | op :: rest =>
    match specTrace rest m a with
    | some r => some r
    | none => touchKey m a op

/-- The record the spec expects `LookupByModuleAndDomain` to return after
the operation sequence: the record last inserted for the key when it has
not been removed since, not-found otherwise. -/
def specLookup (ops : List TableOp) (m a : Nat) : Option DebuggerModule :=
  match specTrace ops m a with
  | some (some dm) => some dm
  | _ => none

/-- The (module, domain) keys of the records inserted by the sequence. -/
def insertedKeys (ops : List TableOp) : List (Nat × Nat) :=
  match ops with
  | [] => []
  | TableOp.insert dm :: rest =>
    (dm.GetRuntimeModule, dm.GetAppDomain) :: insertedKeys rest
  | TableOp.removeOne _ _ :: rest => insertedKeys rest

theorem mem_insertedKeys {ops : List TableOp} {dm : DebuggerModule}
    (h : TableOp.insert dm ∈ ops) :
    (dm.GetRuntimeModule, dm.GetAppDomain) ∈ insertedKeys ops := by
  induction ops with
  | nil => cases h
  | cons op rest ih =>
    rcases List.mem_cons.mp h with heq | hmem
    · rw [← heq]
      exact List.mem_cons_self _ _
    · cases op with
      | insert dm' => exact List.mem_cons_of_mem _ (ih hmem)
      | removeOne m' a' => exact ih hmem

theorem tail_eq_nil_of_length_le_one {l : List DebuggerModule}
    (h : l.length ≤ 1) : l.tail = [] := by
  match l with
  | [] => rfl
  | [x] => rfl
  | x :: y :: rest => simp at h

/-- Evolution of the per-key entry lists of the table under an operation
sequence whose insertions carry pairwise distinct keys, all fresh for the
starting table, assuming the starting table holds at most one record per
key: each key ends up holding exactly what the last operation touching it
dictates. -/
theorem applyOps_keyEntries (ops : List TableOp) (t : DebuggerModuleTable)
    (m a : Nat)
    (hlen : ∀ m' a', (keyEntries t m' a').length ≤ 1)
    (hnodup : (insertedKeys ops).Nodup)
    (hfresh : ∀ dm, TableOp.insert dm ∈ ops →
      keyEntries t dm.GetRuntimeModule dm.GetAppDomain = []) :
    keyEntries (applyOps t ops) m a =
      (match specTrace ops m a with
       | none => keyEntries t m a
       | some none => []
       | some (some dm) => [dm]) := by
  induction ops generalizing t with
  | nil => rfl
  | cons op rest ih =>
    have hstep : applyOps t (op :: rest) = applyOps (applyOp t op) rest := by
      simp [applyOps]
    rw [hstep]
    cases op with
    | insert dm =>
      have hkey : keyEntries t dm.GetRuntimeModule dm.GetAppDomain = [] :=
        hfresh dm (List.mem_cons_self _ _)
      have hnd := List.nodup_cons.mp hnodup
      have happ : applyOp t (TableOp.insert dm) = dm :: t := rfl
      have hlen1 : ∀ m' a', (keyEntries (dm :: t) m' a').length ≤ 1 := by
        intro m' a'
        by_cases hm : dm.GetRuntimeModule = m' ∧ dm.GetAppDomain = a'
        · have : keyEntries t m' a' = [] := by
            rw [← hm.1, ← hm.2]; exact hkey
          simp [keyEntries, hm, this]
        · simp only [keyEntries, if_neg hm]
          exact hlen m' a'
      have hfresh1 : ∀ dm', TableOp.insert dm' ∈ rest →
          keyEntries (dm :: t) dm'.GetRuntimeModule dm'.GetAppDomain = [] := by
        intro dm' hdm'
        have hne : ¬(dm.GetRuntimeModule = dm'.GetRuntimeModule ∧
            dm.GetAppDomain = dm'.GetAppDomain) := by
          rintro ⟨h1, h2⟩
          apply hnd.1
          rw [show (dm.GetRuntimeModule, dm.GetAppDomain)
              = (dm'.GetRuntimeModule, dm'.GetAppDomain) from by rw [h1, h2]]
          exact mem_insertedKeys hdm'
        rw [keyEntries, if_neg hne]
        exact hfresh dm' (List.mem_cons_of_mem _ hdm')
      rw [happ, ih (dm :: t) hlen1 hnd.2 hfresh1]
      simp only [specTrace]
      rcases hspec : specTrace rest m a with _ | r
      · simp only [touchKey]
        by_cases hm : dm.GetRuntimeModule = m ∧ dm.GetAppDomain = a
        · have hnilt : keyEntries t m a = [] := by
            rw [← hm.1, ← hm.2]; exact hkey
          simp [keyEntries, hm, hnilt]
        · simp [keyEntries, hm]
      · rcases r with _ | dm' <;> rfl
    | removeOne m' a' =>
      have happ : applyOp t (TableOp.removeOne m' a') = RemoveModule t m' a' :=
        rfl
      have hlen1 : ∀ x y, (keyEntries (RemoveModule t m' a') x y).length ≤ 1 := by
        intro x y
        by_cases hk : m' = x ∧ a' = y
        · rw [hk.1, hk.2, keyEntries_RemoveModule_same]
          have hxy := hlen x y
          rw [List.length_tail]
          omega
        · rw [keyEntries_RemoveModule_ne t x y m' a' hk]
          exact hlen x y
      have hfresh1 : ∀ dm', TableOp.insert dm' ∈ rest →
          keyEntries (RemoveModule t m' a') dm'.GetRuntimeModule
            dm'.GetAppDomain = [] := by
        intro dm' hdm'
        exact keyEntries_nil_of_nil (hfresh dm' (List.mem_cons_of_mem _ hdm'))
      rw [happ, ih (RemoveModule t m' a') hlen1 hnodup hfresh1]
      simp only [specTrace]
      rcases hspec : specTrace rest m a with _ | r
      · simp only [touchKey]
        by_cases hk : m' = m ∧ a' = a
        · rw [if_pos hk, hk.1, hk.2, keyEntries_RemoveModule_same]
          exact tail_eq_nil_of_length_le_one (hlen m a)
        · rw [if_neg hk, keyEntries_RemoveModule_ne t m a m' a' hk]
      · rcases r with _ | dm' <;> rfl

/-- The operation surface available in the read-only (`DACCESS_COMPILE`)
compilation mode of debuggermodule.cpp, i.e. the member functions defined
outside the `#ifndef DACCESS_COMPILE` region (lines 205-291): exact lookup,
domain-qualified lookup and cursor iteration.  `Insert`, `RemoveOne`,
`RemoveAllForDomain` and `Clear` have no constructor here because they are
compiled out of that mode. -/
inductive ReadOnlyOp where
  | getModule (module : Nat)
  | getModuleInDomain (module : Nat) (pAppDomain : Nat)
  | getFirstModule
  | getNextModule (i : Nat)
  deriving DecidableEq, Repr

/-- Semantics of one read-only operation: the table it leaves behind and
the record it returns.  The lookup computations are the very functions of
the mutable mode, since the source text outside the ifdef region is
compiled into both modes. -/
def runReadOnlyOp (t : DebuggerModuleTable) :
    ReadOnlyOp → DebuggerModuleTable × Option DebuggerModule
  | ReadOnlyOp.getModule m => (t, GetModule t m)
  | ReadOnlyOp.getModuleInDomain m a => (t, GetModuleInDomain t m a)
  | ReadOnlyOp.getFirstModule => (t, GetFirstModule t)
  | ReadOnlyOp.getNextModule i => (t, GetNextModule t i)

/-- The table state left behind by a whole sequence of read-only
operations. -/
def runReadOnlyOps (t : DebuggerModuleTable) (ops : List ReadOnlyOp) :
    DebuggerModuleTable :=
  ops.foldl (fun s op => (runReadOnlyOp s op).1) t

/-- `GetModule(Module*, AppDomain*)` decomposes the table around the entry
it finds, and `RemoveModule` deletes exactly that entry. -/
theorem GetModuleInDomain_decomp {t : DebuggerModuleTable} {m a : Nat}
    {e : DebuggerModule} (h : GetModuleInDomain t m a = some e) :
    ∃ l1 l2, t = l1 ++ e :: l2 ∧
      (∀ x ∈ l1, ¬(x.GetRuntimeModule = m ∧ x.GetAppDomain = a)) ∧
      RemoveModule t m a = l1 ++ l2 := by
  induction t with
  | nil => simp [GetModuleInDomain] at h
  | cons f rest ih =>
    by_cases hf : f.GetRuntimeModule = m ∧ f.GetAppDomain = a
    · rw [GetModuleInDomain, if_pos hf] at h
      obtain rfl := Option.some.inj h
      exact ⟨[], rest, rfl, by simp, by simp [RemoveModule, hf]⟩
    · rw [GetModuleInDomain, if_neg hf] at h
      obtain ⟨l1, l2, h1, h2, h3⟩ := ih h
      refine ⟨f :: l1, l2, ?_, ?_, ?_⟩
      · rw [List.cons_append, ← h1]
      · intro x hx
        rcases List.mem_cons.mp hx with hx | hx
        · rw [hx]; exact hf
        · exact h2 x hx
      · simp only [RemoveModule, if_neg hf, List.cons_append]
        exact congrArg (f :: ·) h3

/-- `Clear` empties the table. -/
theorem Clear_eq_new (t : DebuggerModuleTable) : Clear t = new := by
  induction t with
  | nil => rfl
  | cons e rest ih => rw [Clear]; exact ih

end DebuggerModuleTable

open DebuggerModuleTable

/-- C1: for every sequence of `Insert` (`AddModule`) and `RemoveOne`
(`RemoveModule`) operations in which all inserted (engineModule,
isolationDomain) pairs are distinct, `LookupByModuleAndDomain`
(`GetModule(Module*, AppDomain*)`) on the resulting table returns exactly
the record last inserted for that pair when it has not been removed since,
and not-found after its removal — i.e. it agrees with `specLookup`. -/
theorem lookupByModuleAndDomain_correct (ops : List TableOp) (m a : Nat)
    (hnodup : (insertedKeys ops).Nodup) :
    GetModuleInDomain (applyOps DebuggerModuleTable.new ops) m a =
      specLookup ops m a := by
  have hmain := applyOps_keyEntries ops DebuggerModuleTable.new m a
    (fun m' a' => by simp [DebuggerModuleTable.new, keyEntries])
    hnodup
    (fun dm _ => rfl)
  rw [GetModuleInDomain_eq_head, hmain, specLookup]
  cases hspec : specTrace ops m a with
  | none => rfl
  | some r => cases r with
    | none => rfl
    | some dm => rfl

/-- Concrete run of `lookupByModuleAndDomain_correct`: insert (1,10) and
(2,10), remove (1,10); the lookup of (1,10) is then not-found, as the spec
verdict dictates. -/
theorem lookupByModuleAndDomain_correct_witness :
    (insertedKeys [TableOp.insert ⟨1, 10, true⟩, TableOp.insert ⟨2, 10, false⟩,
      TableOp.removeOne 1 10]).Nodup ∧
    GetModuleInDomain (applyOps DebuggerModuleTable.new
      [TableOp.insert ⟨1, 10, true⟩, TableOp.insert ⟨2, 10, false⟩,
        TableOp.removeOne 1 10]) 1 10 =
      specLookup [TableOp.insert ⟨1, 10, true⟩, TableOp.insert ⟨2, 10, false⟩,
        TableOp.removeOne 1 10] 1 10 :=
  ⟨by decide,
   lookupByModuleAndDomain_correct
     [TableOp.insert ⟨1, 10, true⟩, TableOp.insert ⟨2, 10, false⟩,
       TableOp.removeOne 1 10] 1 10 (by decide)⟩

/-- C2: `RemoveAllForDomain(D)` (`RemoveModules`) leaves exactly the
records whose domain differs from `D` (`survivors`), none of which has
domain `D`; their number plus the number of domain-`D` records is the
original entry count; and a second call is a no-op (idempotence). -/
theorem removeModules_leaves_exactly_other_domains
    (t : DebuggerModuleTable) (d : Nat) :
    RemoveModules t d = survivors t d ∧
    (∀ e ∈ RemoveModules t d, e.GetAppDomain ≠ d) ∧
    (RemoveModules t d).length + countDomain t d = t.length ∧
    RemoveModules (RemoveModules t d) d = RemoveModules t d := by
  refine ⟨RemoveModules_eq_survivors t d, ?_, ?_, ?_⟩
  · intro e he
    rw [RemoveModules_eq_survivors] at he
    exact mem_survivors_domain he
  · rw [RemoveModules_eq_survivors]
    exact survivors_length_add_countDomain t d
  · rw [RemoveModules_eq_survivors t d, RemoveModules_eq_survivors,
      survivors_idem]

/-- Concrete run of `removeModules_leaves_exactly_other_domains`, the
spec's scenario: insert (1,1), (2,1), (1,2) and remove domain 1; exactly
the record (1,2) remains. -/
theorem removeModules_leaves_exactly_other_domains_witness :
    RemoveModules [⟨1, 1, true⟩, ⟨2, 1, false⟩, ⟨1, 2, true⟩] 1 =
      survivors [⟨1, 1, true⟩, ⟨2, 1, false⟩, ⟨1, 2, true⟩] 1 ∧
    survivors [⟨1, 1, true⟩, ⟨2, 1, false⟩, ⟨1, 2, true⟩] 1 = [⟨1, 2, true⟩] :=
  ⟨(removeModules_leaves_exactly_other_domains
      [⟨1, 1, true⟩, ⟨2, 1, false⟩, ⟨1, 2, true⟩] 1).1,
   by decide⟩

/-- C3: after inserting two records sharing one engine module but with
different isolation domains, each is returned by the domain-qualified
lookup under its own domain, and the exact lookup returns one of the two
(the table may hold arbitrary other entries underneath). -/
theorem shared_module_two_domains_lookup (t t2 : DebuggerModuleTable)
    (dm1 dm2 : DebuggerModule)
    (hm : dm2.GetRuntimeModule = dm1.GetRuntimeModule)
    (hne : dm1.GetAppDomain ≠ dm2.GetAppDomain)
    (ht2 : t2 = (AddModule (AddModule t dm1 true).1 dm2 true).1) :
    GetModuleInDomain t2 dm1.GetRuntimeModule dm1.GetAppDomain = some dm1 ∧
    GetModuleInDomain t2 dm2.GetRuntimeModule dm2.GetAppDomain = some dm2 ∧
    (GetModule t2 dm1.GetRuntimeModule = some dm1 ∨
     GetModule t2 dm1.GetRuntimeModule = some dm2) := by
  subst ht2
  have h2 : (AddModule (AddModule t dm1 true).1 dm2 true).1
      = dm2 :: dm1 :: t := rfl
  rw [h2]
  refine ⟨?_, ?_, Or.inr ?_⟩
  · have hno : ¬(dm2.GetRuntimeModule = dm1.GetRuntimeModule ∧
        dm2.GetAppDomain = dm1.GetAppDomain) := by
      rintro ⟨_, hq⟩
      exact hne hq.symm
    rw [GetModuleInDomain, if_neg hno, GetModuleInDomain, if_pos ⟨rfl, rfl⟩]
  · rw [GetModuleInDomain, if_pos ⟨rfl, rfl⟩]
  · rw [GetModule, if_pos ⟨by rw [hm], hm⟩]

/-- Concrete run of `shared_module_two_domains_lookup`: module 5 loaded
into domains 1 and 2. -/
theorem shared_module_two_domains_lookup_witness :
    GetModuleInDomain
        (AddModule (AddModule DebuggerModuleTable.new ⟨5, 1, false⟩ true).1
          ⟨5, 2, true⟩ true).1 5 1 = some ⟨5, 1, false⟩ ∧
    GetModuleInDomain
        (AddModule (AddModule DebuggerModuleTable.new ⟨5, 1, false⟩ true).1
          ⟨5, 2, true⟩ true).1 5 2 = some ⟨5, 2, true⟩ ∧
    (GetModule (AddModule (AddModule DebuggerModuleTable.new ⟨5, 1, false⟩ true).1
          ⟨5, 2, true⟩ true).1 5 = some ⟨5, 1, false⟩ ∨
     GetModule (AddModule (AddModule DebuggerModuleTable.new ⟨5, 1, false⟩ true).1
          ⟨5, 2, true⟩ true).1 5 = some ⟨5, 2, true⟩) :=
  shared_module_two_domains_lookup DebuggerModuleTable.new _
    ⟨5, 1, false⟩ ⟨5, 2, true⟩ rfl (by decide) rfl

/-- C4: `RemoveAllForDomain` (`RemoveModules`) follows the
restart-on-removal algorithm — it starts the scan at the first entry; at a
cursor whose entry's record has the given domain it delegates to the
single-entry removal `RemoveModule` and restarts the scan at the first
entry; at a non-matching entry it advances the cursor; it stops when the
cursor runs off the end, and a complete scan meeting no record of the
domain leaves the table unchanged.  Termination for every finite table is
witnessed by `removeModulesGo` being a total function. -/
theorem removeModules_algorithm (t : DebuggerModuleTable) (d : Nat) :
    RemoveModules t d = removeModulesGo t d 0 ∧
    (∀ i : Nat, ∀ hi : i < t.length,
      ((t.get ⟨i, hi⟩).GetAppDomain = d →
        removeModulesGo t d i =
          removeModulesGo (RemoveModule t (t.get ⟨i, hi⟩).GetRuntimeModule d)
            d 0) ∧
      ((t.get ⟨i, hi⟩).GetAppDomain ≠ d →
        removeModulesGo t d i = removeModulesGo t d (i + 1))) ∧
    (∀ i : Nat, t.length ≤ i → removeModulesGo t d i = t) ∧
    ((∀ e ∈ t, e.GetAppDomain ≠ d) → RemoveModules t d = t) := by
  refine ⟨rfl, ?_, ?_, ?_⟩
  · intro i hi
    constructor
    · intro hd
      rw [removeModulesGo, dif_pos hi, dif_pos hd]
    · intro hd
      rw [removeModulesGo, dif_pos hi, dif_neg hd]
  · intro i hle
    rw [removeModulesGo, dif_neg (Nat.not_lt.mpr hle)]
  · intro hclean
    rw [RemoveModules_eq_survivors]
    exact survivors_of_clean hclean

/-- Concrete run of `removeModules_algorithm`: a non-matching cursor entry
advances the scan, and a table with no domain-7 record is left unchanged. -/
theorem removeModules_algorithm_witness :
    removeModulesGo [⟨1, 7, false⟩, ⟨2, 8, true⟩] 7 1 =
      removeModulesGo [⟨1, 7, false⟩, ⟨2, 8, true⟩] 7 2 ∧
    RemoveModules [⟨1, 8, false⟩] 7 = [⟨1, 8, false⟩] :=
  ⟨((removeModules_algorithm [⟨1, 7, false⟩, ⟨2, 8, true⟩] 7).2.1 1
      (by decide)).2 (by decide),
   (removeModules_algorithm [⟨1, 8, false⟩] 7).2.2.2 (by decide)⟩

/-- C5: `RemoveOne` (`RemoveModule`) on a (module, domain) pair with no
matching entry is a silent no-op that leaves the entry count unchanged
(and, being a total function, raises nothing); when a matching entry
exists (the one `GetModuleInDomain` finds), that entry is removed — the
table splits as a clean front, the destroyed entry, and the tail — and the
entry count drops by exactly one. -/
theorem removeModule_noop_or_removes (t : DebuggerModuleTable) (m a : Nat) :
    ((∀ e ∈ t, ¬(e.GetRuntimeModule = m ∧ e.GetAppDomain = a)) →
      RemoveModule t m a = t ∧ (RemoveModule t m a).length = t.length) ∧
    (∀ e, GetModuleInDomain t m a = some e →
      ∃ l1 l2, t = l1 ++ e :: l2 ∧
        (∀ x ∈ l1, ¬(x.GetRuntimeModule = m ∧ x.GetAppDomain = a)) ∧
        RemoveModule t m a = l1 ++ l2 ∧
        (RemoveModule t m a).length + 1 = t.length) := by
  constructor
  · intro hclean
    have hid := RemoveModule_of_clean hclean
    exact ⟨hid, by rw [hid]⟩
  · intro e he
    obtain ⟨l1, l2, h1, h2, h3⟩ := GetModuleInDomain_decomp he
    refine ⟨l1, l2, h1, h2, h3, ?_⟩
    rw [h3, h1]
    simp only [List.length_append, List.length_cons]
    omega

/-- Concrete run of `removeModule_noop_or_removes`: removing a key never
inserted is a no-op; removing the present key (3,4) deletes its entry. -/
theorem removeModule_noop_or_removes_witness :
    RemoveModule [⟨3, 4, true⟩] 9 9 = [⟨3, 4, true⟩] ∧
    (∃ l1 l2, ([⟨3, 4, true⟩] : DebuggerModuleTable)
        = l1 ++ (⟨3, 4, true⟩ : DebuggerModule) :: l2 ∧
      (∀ x ∈ l1, ¬(x.GetRuntimeModule = 3 ∧ x.GetAppDomain = 4)) ∧
      RemoveModule [⟨3, 4, true⟩] 3 4 = l1 ++ l2 ∧
      (RemoveModule [⟨3, 4, true⟩] 3 4).length + 1
        = ([⟨3, 4, true⟩] : DebuggerModuleTable).length) :=
  ⟨((removeModule_noop_or_removes [⟨3, 4, true⟩] 9 9).1 (by decide)).1,
   (removeModule_noop_or_removes [⟨3, 4, true⟩] 3 4).2 ⟨3, 4, true⟩
     (by decide)⟩

/-- C6: `Insert` (`AddModule`) with a failed entry allocation raises
out-of-memory and leaves the table unchanged (the record is not indexed);
with a successful allocation it stores the record and the entry count
grows by exactly one; and it succeeds unconditionally — in particular with
no uniqueness check against the (module, domain) pairs already present,
since the result is the same for every starting table. -/
theorem addModule_alloc_behavior (t : DebuggerModuleTable)
    (pModule : DebuggerModule) :
    AddModule t pModule false = (t, AddResult.oom) ∧
    AddModule t pModule true = (pModule :: t, AddResult.ok) ∧
    (AddModule t pModule true).1.length = t.length + 1 :=
  ⟨rfl, rfl, by simp [AddModule]⟩

/-- C7: after `Clear` the table equals a freshly constructed registry, a
fresh iteration yields no entries, and a subsequent `Insert` behaves
exactly as on a freshly constructed registry. -/
theorem clear_empties_and_reusable (t : DebuggerModuleTable)
    (pModule : DebuggerModule) (allocOk : Bool) :
    Clear t = DebuggerModuleTable.new ∧
    GetFirstModule (Clear t) = none ∧
    (AddModule (Clear t) pModule true).2 = AddResult.ok ∧
    AddModule (Clear t) pModule allocOk
      = AddModule DebuggerModuleTable.new pModule allocOk := by
  have hempty := Clear_eq_new t
  exact ⟨hempty, by rw [hempty]; rfl, by rw [hempty]; rfl, by rw [hempty]⟩

/-- C8: every operation of the read-only compilation mode's surface
(`ReadOnlyOp`, whose constructors are exactly the lookups and iteration
compiled in that mode) leaves the table unchanged — as does any sequence
of them — and each lookup available in both modes computes the very
mutable-mode lookup function on the same table state. -/
theorem readonly_ops_preserve_table (t : DebuggerModuleTable)
    (op : ReadOnlyOp) (ops : List ReadOnlyOp) (m a i : Nat) :
    (runReadOnlyOp t op).1 = t ∧
    runReadOnlyOps t ops = t ∧
    (runReadOnlyOp t (ReadOnlyOp.getModule m)).2 = GetModule t m ∧
    (runReadOnlyOp t (ReadOnlyOp.getModuleInDomain m a)).2
      = GetModuleInDomain t m a ∧
    (runReadOnlyOp t ReadOnlyOp.getFirstModule).2 = GetFirstModule t ∧
    (runReadOnlyOp t (ReadOnlyOp.getNextModule i)).2 = GetNextModule t i := by
  refine ⟨?_, ?_, rfl, rfl, rfl, rfl⟩
  · cases op <;> rfl
  · induction ops generalizing t with
    | nil => rfl
    | cons op' rest ih =>
      have hone : (runReadOnlyOp t op').1 = t := by cases op' <;> rfl
      calc runReadOnlyOps t (op' :: rest)
          = runReadOnlyOps (runReadOnlyOp t op').1 rest := by
            simp [runReadOnlyOps]
        _ = runReadOnlyOps t rest := by rw [hone]
        _ = t := ih t

/-- C9: `SetCanChangeJitFlags` unconditionally overwrites the
JIT-flags-mutability bit with its argument and leaves the two identity
fields of the record untouched; it takes no registry state and needs no
precondition. -/
theorem setCanChangeJitFlags_overwrites_only_flag (dm : DebuggerModule)
    (fCanChangeJitFlags : Bool) :
    (dm.SetCanChangeJitFlags fCanChangeJitFlags).m_fCanChangeJitFlags
      = fCanChangeJitFlags ∧
    (dm.SetCanChangeJitFlags fCanChangeJitFlags).m_pRuntimeModule
      = dm.m_pRuntimeModule ∧
    (dm.SetCanChangeJitFlags fCanChangeJitFlags).m_pAppDomain
      = dm.m_pAppDomain :=
  ⟨rfl, rfl, rfl⟩

/-- C10: whenever the exact lookup `GetModule(Module*)` returns a record,
that record's engine module equals the queried one; and when no record in
the table has the queried module, it returns not-found — even when other
modules hash to the same bucket of the 101-bucket table, since the
container compares raw keys, not just buckets. -/
theorem getModule_returns_matching_module (t : DebuggerModuleTable)
    (m : Nat) :
    (∀ r, GetModule t m = some r → r.GetRuntimeModule = m) ∧
    ((∀ e ∈ t, e.GetRuntimeModule ≠ m) → GetModule t m = none) := by
  induction t with
  | nil => exact ⟨fun r h => by simp [GetModule] at h, fun _ => rfl⟩
  | cons e rest ih =>
    constructor
    · intro r h
      by_cases he : HASH e.GetRuntimeModule = HASH m ∧ e.GetRuntimeModule = m
      · rw [GetModule, if_pos he] at h
        obtain rfl := Option.some.inj h
        exact he.2
      · rw [GetModule, if_neg he] at h
        exact ih.1 r h
    · intro hcl
      have he : ¬(HASH e.GetRuntimeModule = HASH m ∧ e.GetRuntimeModule = m) := by
        rintro ⟨_, h2⟩
        exact hcl e (List.mem_cons_self e rest) h2
      rw [GetModule, if_neg he]
      exact ih.2 (fun x hx => hcl x (List.mem_cons_of_mem e hx))

/-- Concrete run of `getModule_returns_matching_module`: module 101
collides with module 0 in the 101-bucket table (`HASH 101 = HASH 0`), yet
looking up module 0 in a table holding only module 101 is not-found. -/
theorem getModule_returns_matching_module_witness :
    HASH 101 = HASH 0 ∧
    GetModule [⟨101, 0, false⟩] 0 = none :=
  ⟨by decide,
   (getModule_returns_matching_module [⟨101, 0, false⟩] 0).2 (by decide)⟩
